import Mathlib

/-!
Verification of the quantum-battleship line scanner (src/main.py).

The detector builds an H–oracle–H circuit on `n` qubits, where
`n = max(1, ceil(log2 L))` for a line of length `L`, the oracle is the
diagonal ±1 phase vector produced by `create_oracle`, and the verdict is
derived from `n + 1` measurement samples: MISS iff every sample is the
all-zero basis state (index 0).

The state simulation is embedded exactly: amplitudes live in the ring
ℚ(√2) (`Qs2` below, pairs `a + b·√2` of rationals), which contains the
normalization constant 1/√2 of the Hadamard gate, so every amplitude the
circuit produces is represented without rounding.  The n-qubit
Walsh–Hadamard transform (the tensor power H^⊗n effected by the `qc.h(range(n))`
calls) is embedded by its standard recursive butterfly characterization
`W(n+1) = [[W n, W n], [W n, -W n]]` scaled by `(1/√2)^n`, generic over any
commutative ring containing an element `c` with `2·c·c = 1`.
-/

/-- The ring ℚ(√2): `⟨a, b⟩` represents `a + b·√2`.  Exact arithmetic for
the amplitudes of the simulated circuit (all of which lie in ℚ(√2)). -/
structure Qs2 where
  a : ℚ
  b : ℚ
deriving DecidableEq

namespace Qs2

instance : Zero Qs2 := ⟨⟨0, 0⟩⟩

instance : One Qs2 := ⟨⟨1, 0⟩⟩

instance : Add Qs2 := ⟨fun x y => ⟨x.a + y.a, x.b + y.b⟩⟩

instance : Neg Qs2 := ⟨fun x => ⟨-x.a, -x.b⟩⟩

instance : Mul Qs2 := ⟨fun x y => ⟨x.a * y.a + 2 * x.b * y.b, x.a * y.b + x.b * y.a⟩⟩

instance : NatCast Qs2 := ⟨fun n => ⟨n, 0⟩⟩

instance : IntCast Qs2 := ⟨fun n => ⟨n, 0⟩⟩

@[simp] theorem zero_a : (0 : Qs2).a = 0 := rfl

@[simp] theorem zero_b : (0 : Qs2).b = 0 := rfl

@[simp] theorem one_a : (1 : Qs2).a = 1 := rfl

@[simp] theorem one_b : (1 : Qs2).b = 0 := rfl

@[simp] theorem add_a (x y : Qs2) : (x + y).a = x.a + y.a := rfl

@[simp] theorem add_b (x y : Qs2) : (x + y).b = x.b + y.b := rfl

@[simp] theorem neg_a (x : Qs2) : (-x).a = -x.a := rfl

@[simp] theorem neg_b (x : Qs2) : (-x).b = -x.b := rfl

@[simp] theorem mul_a (x y : Qs2) : (x * y).a = x.a * y.a + 2 * x.b * y.b := rfl

@[simp] theorem mul_b (x y : Qs2) : (x * y).b = x.a * y.b + x.b * y.a := rfl

@[simp] theorem natCast_a (n : ℕ) : ((n : Qs2)).a = n := rfl

@[simp] theorem natCast_b (n : ℕ) : ((n : Qs2)).b = 0 := rfl

@[simp] theorem intCast_a (n : ℤ) : ((n : Qs2)).a = n := rfl

@[simp] theorem intCast_b (n : ℤ) : ((n : Qs2)).b = 0 := rfl

theorem ext2 {x y : Qs2} (ha : x.a = y.a) (hb : x.b = y.b) : x = y := by
  cases x; cases y; simp_all

instance : CommRing Qs2 where
  add_assoc x y z := by apply ext2 <;> simp <;> ring
  zero_add x := by apply ext2 <;> simp
  add_zero x := by apply ext2 <;> simp
  add_comm x y := by apply ext2 <;> simp <;> ring
  mul_assoc x y z := by apply ext2 <;> simp <;> ring
  one_mul x := by apply ext2 <;> simp
  mul_one x := by apply ext2 <;> simp
  left_distrib x y z := by apply ext2 <;> simp <;> ring
  right_distrib x y z := by apply ext2 <;> simp <;> ring
  mul_comm x y := by apply ext2 <;> simp <;> ring
  zero_mul x := by apply ext2 <;> simp
  mul_zero x := by apply ext2 <;> simp
  neg_add_cancel x := by apply ext2 <;> simp
  natCast_zero := by apply ext2 <;> simp
  natCast_succ n := by apply ext2 <;> simp
  intCast_ofNat n := by apply ext2 <;> simp
  intCast_negSucc n := by apply ext2 <;> simp <;> push_cast <;> ring
  nsmul n x := ⟨n * x.a, n * x.b⟩
  nsmul_zero x := by apply ext2 <;> simp
  nsmul_succ n x := by apply ext2 <;> simp <;> ring
  zsmul n x := ⟨n * x.a, n * x.b⟩
  zsmul_zero' x := by apply ext2 <;> simp
  zsmul_succ' n x := by apply ext2 <;> simp <;> push_cast <;> ring
  zsmul_neg' n x := by apply ext2 <;> simp <;> push_cast <;> ring

@[simp] theorem ofNat_a (n : ℕ) [Nat.AtLeastTwo n] :
    (no_index (OfNat.ofNat n) : Qs2).a = OfNat.ofNat n := by
  show ((OfNat.ofNat n : ℕ) : ℚ) = _
  simp

@[simp] theorem ofNat_b (n : ℕ) [Nat.AtLeastTwo n] :
    (no_index (OfNat.ofNat n) : Qs2).b = 0 := rfl

/-- Embedding of the rationals into ℚ(√2). -/
def ofQ (q : ℚ) : Qs2 := ⟨q, 0⟩

@[simp] theorem ofQ_a (q : ℚ) : (ofQ q).a = q := rfl

@[simp] theorem ofQ_b (q : ℚ) : (ofQ q).b = 0 := rfl

theorem ofQ_injective : Function.Injective ofQ := by
  intro x y h
  simpa [ofQ, Qs2.mk.injEq] using h

@[simp] theorem ofQ_mul (p q : ℚ) : ofQ p * ofQ q = ofQ (p * q) := by
  apply ext2 <;> simp

@[simp] theorem ofQ_add (p q : ℚ) : ofQ p + ofQ q = ofQ (p + q) := by
  apply ext2 <;> simp

@[simp] theorem ofQ_one : ofQ 1 = 1 := rfl

@[simp] theorem ofQ_zero : ofQ 0 = 0 := rfl

theorem ofQ_pow (q : ℚ) (n : ℕ) : ofQ q ^ n = ofQ (q ^ n) := by
  induction n with
  | zero => simp
  | succ n ih => rw [pow_succ, pow_succ, ih, ofQ_mul]

theorem ofQ_intCast (n : ℤ) : ((n : Qs2)) = ofQ (n : ℚ) := by
  apply ext2 <;> simp

/-- The element `1/√2 = (1/2)·√2` of ℚ(√2): the normalization constant of a
single Hadamard gate. -/
def rt2inv : Qs2 := ⟨0, 1/2⟩

@[simp] theorem rt2inv_a : rt2inv.a = 0 := rfl

@[simp] theorem rt2inv_b : rt2inv.b = 1/2 := rfl

theorem two_rt2inv_sq : 2 * (rt2inv * rt2inv) = 1 := by
  apply ext2 <;> simp <;> norm_num

theorem rt2inv_sq : rt2inv * rt2inv = ofQ (1/2) := by
  apply ext2 <;> simp <;> norm_num

end Qs2

/-!
## Embedding of src/main.py
-/

/-- Auxiliary loop for `ceilLog2`: starting from exponent `k`, return the
first `j ≥ k` with `L ≤ 2 ^ j`, trying at most `fuel` increments.
Structural recursion on `fuel` keeps the definition kernel-computable. -/
def clog2Go (L : ℕ) : ℕ → ℕ → ℕ
  | 0, k => k
  | fuel + 1, k => if L ≤ 2 ^ k then k else clog2Go L fuel (k + 1)

/-- `ceil(log2 L)` for `L ≥ 1`: the least `k` with `L ≤ 2 ^ k`
(this is the exact value of `math.ceil(math.log2(len(line_data)))` in
`create_oracle` / `quantum_scan_line`, src/main.py lines 24 and 63). -/
def ceilLog2 (L : ℕ) : ℕ := clog2Go L L 0

/-- `n_qubits` as computed in src/main.py lines 24-26 and 63-65:
`n = ceil(log2 L)`, bumped to 1 when it is 0 (i.e. when `L = 1`). -/
def nQubits (L : ℕ) : ℕ := if ceilLog2 L = 0 then 1 else ceilLog2 L

/-- `create_oracle` (src/main.py lines 7-38), as the diagonal phase vector of
the returned `DiagonalGate`: empty input gives `[1]`; otherwise `2 ^ n_qubits`
entries initialized to `+1`, with entry `i` set to `-1` whenever `i` is a line
index and `line[i]` is truthy (Python `if has_ship:`, i.e. nonzero). -/
def create_oracle (line : List ℤ) : List ℤ :=
  if line.isEmpty then [1]
  else
    (List.range (2 ^ nQubits line.length)).map
      (fun i => if i < line.length ∧ line.getD i 0 ≠ 0 then -1 else 1)

/-- Gates appearing in the scan circuit of `quantum_scan_line`. -/
inductive Gate
  | h (q : ℕ)
  | diagonal (phases : List ℤ) (qs : List ℕ)
  | measure (q : ℕ) (c : ℕ)
deriving DecidableEq

/-- The circuit object built by `quantum_scan_line` (src/main.py lines 67-81):
qubit/clbit counts and the gate sequence H-all, oracle, H-all, measure-all. -/
structure QuantumCircuit where
  numQubits : ℕ
  numClbits : ℕ
  gates : List Gate
deriving DecidableEq

/-- The circuit `quantum_scan_line` builds for a non-empty line:
`QuantumCircuit(n, n)`, `h(range(n))`, `append(create_oracle(line), range(n))`,
`h(range(n))`, `measure(range(n), range(n))`. -/
def buildCircuit (line : List ℤ) : QuantumCircuit :=
  { numQubits := nQubits line.length
    numClbits := nQubits line.length
    gates :=
      (List.range (nQubits line.length)).map Gate.h
        ++ [Gate.diagonal (create_oracle line) (List.range (nQubits line.length))]
        ++ (List.range (nQubits line.length)).map Gate.h
        ++ (List.range (nQubits line.length)).map (fun q => Gate.measure q q) }

/-- Result of `quantum_scan_line`: either the circuit object (when `draw` is
true) or a `"DETECT"` / `"MISS"` verdict string. -/
inductive ScanResult
  | circuit (qc : QuantumCircuit)
  | verdict (v : String)
deriving DecidableEq

/-- `SHOTS = n_qubits + 1` (src/main.py line 89). -/
def shotCount (line : List ℤ) : ℕ := nQubits line.length + 1

/-- `quantum_scan_line` (src/main.py lines 42-109).  The only
nondeterminism in the source is the simulator's sampling, so the measured
samples are passed explicitly: `samples` lists the basis-state index of each
of the `SHOTS` shots (the counts dictionary key `'0' * n_qubits` is basis
state 0).  `miss_counts = counts.get(zero_state, 0)` is the number of samples
equal to 0; the verdict is DETECT iff `miss_counts < SHOTS`. -/
def quantum_scan_line (line : List ℤ) (draw : Bool) (samples : List ℕ) : ScanResult :=
  if line.isEmpty then .verdict "MISS"
  else if draw then .circuit (buildCircuit line)
  else .verdict (if samples.count 0 < shotCount line then "DETECT" else "MISS")

section Transforms

variable {R : Type*} [CommRing R]

/-- The unnormalized Walsh–Hadamard butterfly on a vector of length `2 ^ n`:
`W 0 = id`, and `W (n+1) v = (W n a + W n b) ++ (W n a - W n b)` where
`a ++ b` splits `v` in half.  This is the n-fold tensor power of the
unnormalized Hadamard matrix `[[1,1],[1,-1]]`. -/
def butterfly : ℕ → List R → List R
  | 0, v => v
  | n + 1, v =>
    List.zipWith (· + ·) (butterfly n (v.take (2 ^ n))) (butterfly n (v.drop (2 ^ n)))
      ++ List.zipWith (· - ·) (butterfly n (v.take (2 ^ n))) (butterfly n (v.drop (2 ^ n)))

/-- The state-vector effect of `qc.h(range(n))` (src/main.py lines 71 and 78):
the n-qubit Walsh–Hadamard transform, i.e. the butterfly scaled by `c ^ n`
where `c` is the ring's square root of one half (`1/√2`; each of the `n`
Hadamard gates contributes one factor). -/
def applyWalshHadamard (c : R) (n : ℕ) (v : List R) : List R :=
  (butterfly n v).map (fun x => c ^ n * x)

/-- The state-vector effect of appending `DiagonalGate(phases)`
(src/main.py line 75): entrywise multiplication by the phase vector. -/
def applyDiagonal (phases : List ℤ) (v : List R) : List R :=
  List.zipWith (fun (p : ℤ) (x : R) => (p : R) * x) phases v

/-- The initial state `|0...0⟩` of `QuantumCircuit(n, n)`: amplitude 1 at
basis state 0, amplitude 0 elsewhere. -/
def initState (n : ℕ) : List R :=
  (List.range (2 ^ n)).map (fun i => if i = 0 then 1 else 0)

/-- Sum of squares of a vector's entries (the squared norm; for the state
vector, the total probability mass). -/
def sumSq (v : List R) : R := (v.map (fun x => x * x)).sum

end Transforms

/-- The exact pre-measurement state vector of the circuit simulated by
`quantum_scan_line` on a non-empty line (src/main.py lines 67-92):
start in `|0...0⟩`, apply H to every qubit, apply the oracle's diagonal
phases, apply H to every qubit again. -/
def scanState (line : List ℤ) : List Qs2 :=
  applyWalshHadamard Qs2.rt2inv (nQubits line.length)
    (applyDiagonal (create_oracle line)
      (applyWalshHadamard Qs2.rt2inv (nQubits line.length)
        (initState (nQubits line.length))))

/-- The measurement probability of each basis state: the square of its
(real) amplitude in `scanState`. -/
def probDist (line : List ℤ) : List Qs2 :=
  (scanState line).map (fun x => x * x)

/-- The probability that one shot measures basis state 0 (the `'0' * n_qubits`
key of the counts dictionary), as a rational number: the square of the
amplitude of basis state 0.  The `.a` projection is lossless here because the
final amplitudes are rational (proved in `scanState_getD_zero`). -/
def probZero (line : List ℤ) : ℚ :=
  (((scanState line).getD 0 0) * ((scanState line).getD 0 0)).a

/-- Modelled from the spec (the sampling itself happens inside the external
`AerSimulator`, not in src/): the simulator draws `shotCount` independent
samples from the measurement distribution, and the scan answers DETECT unless
every sample is basis state 0, so a single invocation returns DETECT with
probability `1 - p₀ ^ shotCount` where `p₀` is the probability of basis
state 0. -/
def detectProb (line : List ℤ) : ℚ := 1 - probZero line ^ shotCount line

/-!
## The game's ship placement (src/main.py lines 138-188)
-/

/-- One random placement attempt of `place_ships`: the values drawn from
`random.choice(['horizontal', 'vertical'])` and the two `random.randint`
calls (src/main.py lines 155-163). -/
structure Attempt where
  horizontal : Bool
  r : ℕ
  c : ℕ
deriving DecidableEq

/-- The ranges `random.randint` is called with in `place_ships`: for a
horizontal attempt `r ∈ [0, size-1]` and `c ∈ [0, size-length]`, for a
vertical attempt `r ∈ [0, size-length]` and `c ∈ [0, size-1]`. -/
def validAttempt (size length : ℕ) (a : Attempt) : Prop :=
  if a.horizontal then a.r < size ∧ a.c + length ≤ size
  else a.r + length ≤ size ∧ a.c < size

instance (size length : ℕ) (a : Attempt) : Decidable (validAttempt size length a) := by
  unfold validAttempt
  infer_instance

/-- The coordinates a placement attempt would occupy (`new_ship` in
src/main.py lines 166-178): `(r, c+i)` horizontally, `(r+i, c)` vertically,
for `i < length`. -/
def shipCells (a : Attempt) (length : ℕ) : List (ℕ × ℕ) :=
  (List.range length).map (fun i => if a.horizontal then (a.r, a.c + i) else (a.r + i, a.c))

/-- The retry loop for one ship (src/main.py lines 153-186): try each
attempt in turn; the first attempt none of whose cells overlaps the already
placed coordinates is accepted and its cells appended; if no attempt
succeeds the ship is skipped and the coordinates are returned unchanged
(the code only prints a warning). -/
def placeOne (length : ℕ) (attempts : List Attempt) (coords : List (ℕ × ℕ)) : List (ℕ × ℕ) :=
  match attempts with
  | [] => coords
  | a :: rest =>
    if ∀ cell ∈ shipCells a length, cell ∉ coords then coords ++ shipCells a length
    else placeOne length rest coords

/-- `place_ships` (src/main.py lines 138-188), with the pseudo-random draws
passed explicitly: ship `i` consumes the `i`-th list of attempts, capped at
`max_retries = 100`.  Returns the accumulated ship coordinates. -/
def place_ships (size : ℕ) (ship_lengths : List ℕ) (rng : List (List Attempt)) : List (ℕ × ℕ) :=
  (ship_lengths.zip rng).foldl (fun coords p => placeOne p.1 (p.2.take 100) coords) []

/-!
## Lemmas: `ceilLog2` and `nQubits`
-/

theorem clog2Go_spec (L : ℕ) : ∀ fuel k, L ≤ 2 ^ (k + fuel) →
    L ≤ 2 ^ clog2Go L fuel k ∧ k ≤ clog2Go L fuel k ∧
      ∀ j, k ≤ j → L ≤ 2 ^ j → clog2Go L fuel k ≤ j := by
  intro fuel
  induction fuel with
  | zero =>
    intro k hk
    refine ⟨by simpa using hk, le_refl _, fun j hj _ => ?_⟩
    simpa [clog2Go] using hj
  | succ fuel ih =>
    intro k hk
    by_cases h : L ≤ 2 ^ k
    · exact ⟨by simpa [clog2Go, h] using h, by simp [clog2Go, h],
        fun j hj _ => by simpa [clog2Go, h] using hj⟩
    · have hk2 : L ≤ 2 ^ (k + 1 + fuel) := by
        have : k + 1 + fuel = k + (fuel + 1) := by omega
        rw [this]; exact hk
      obtain ⟨h1, h2, h3⟩ := ih (k + 1) hk2
      refine ⟨by simpa [clog2Go, h] using h1, ?_, ?_⟩
      · have := h2
        simp only [clog2Go, if_neg h]
        omega
      · intro j hj hLj
        have hj1 : k + 1 ≤ j := by
          rcases Nat.eq_or_lt_of_le hj with rfl | hlt
          · exact absurd hLj h
          · omega
        simpa [clog2Go, h] using h3 j hj1 hLj

/-- `ceilLog2 L` is the least exponent `k` with `L ≤ 2 ^ k`. -/
theorem ceilLog2_spec (L : ℕ) :
    L ≤ 2 ^ ceilLog2 L ∧ ∀ j, L ≤ 2 ^ j → ceilLog2 L ≤ j := by
  have hfuel : L ≤ 2 ^ (0 + L) := by
    simpa using (Nat.lt_two_pow L).le
  obtain ⟨h1, _, h3⟩ := clog2Go_spec L L 0 hfuel
  exact ⟨h1, fun j hj => h3 j (Nat.zero_le j) hj⟩

theorem nQubits_eq_max (L : ℕ) : nQubits L = max 1 (ceilLog2 L) := by
  unfold nQubits
  by_cases h : ceilLog2 L = 0 <;> simp [h] <;> omega

theorem one_le_nQubits (L : ℕ) : 1 ≤ nQubits L := by
  rw [nQubits_eq_max]; exact le_max_left _ _

theorem le_two_pow_nQubits (L : ℕ) : L ≤ 2 ^ nQubits L := by
  have h1 := (ceilLog2_spec L).1
  have h2 : ceilLog2 L ≤ nQubits L := by rw [nQubits_eq_max]; exact le_max_right _ _
  exact h1.trans (Nat.pow_le_pow_right (by norm_num) h2)

theorem two_le_two_pow_nQubits (L : ℕ) : 2 ≤ 2 ^ nQubits L := by
  calc 2 = 2 ^ 1 := by norm_num
  _ ≤ 2 ^ nQubits L := Nat.pow_le_pow_right (by norm_num) (one_le_nQubits L)

/-!
## Lemmas: `create_oracle`
-/

theorem create_oracle_length {line : List ℤ} (hne : line ≠ []) :
    (create_oracle line).length = 2 ^ nQubits line.length := by
  simp [create_oracle, hne]

theorem create_oracle_getElem {line : List ℤ} (hne : line ≠ []) (i : ℕ)
    (hi : i < (create_oracle line).length) :
    (create_oracle line)[i] =
      if i < line.length ∧ line.getD i 0 ≠ 0 then -1 else 1 := by
  have hE : line.isEmpty = false := List.isEmpty_eq_false.mpr hne
  simp [create_oracle, hE]

theorem create_oracle_getD {line : List ℤ} (hne : line ≠ []) (i : ℕ)
    (hi : i < 2 ^ nQubits line.length) :
    (create_oracle line).getD i 0 =
      if i < line.length ∧ line.getD i 0 ≠ 0 then -1 else 1 := by
  have hlen : i < (create_oracle line).length := by
    rw [create_oracle_length hne]; exact hi
  rw [List.getD_eq_getElem _ _ hlen]
  exact create_oracle_getElem hne i hlen

theorem create_oracle_mem {line : List ℤ} {p : ℤ} (hp : p ∈ create_oracle line) :
    p = 1 ∨ p = -1 := by
  unfold create_oracle at hp
  by_cases h : line.isEmpty
  · rw [if_pos h] at hp
    left
    simpa using hp
  · rw [if_neg h] at hp
    obtain ⟨i, _, hi2⟩ := List.mem_map.mp hp
    by_cases hc : i < line.length ∧ line.getD i 0 ≠ 0
    · right; rw [← hi2, if_pos hc]
    · left; rw [← hi2, if_neg hc]

theorem create_oracle_all_zero {line : List ℤ} (h0 : ∀ x ∈ line, x = 0) :
    line ≠ [] → create_oracle line = List.replicate (2 ^ nQubits line.length) 1 := by
  intro hne
  unfold create_oracle
  rw [if_neg (by simp [hne])]
  have hconst : ∀ i ∈ List.range (2 ^ nQubits line.length),
      (if i < line.length ∧ line.getD i 0 ≠ 0 then (-1 : ℤ) else 1) = 1 := by
    intro i _
    rw [if_neg]
    rintro ⟨hi, hval⟩
    rw [List.getD_eq_getElem _ _ hi] at hval
    exact hval (h0 _ (List.getElem_mem hi))
  rw [List.map_congr_left hconst]
  simp [List.map_const]

/-!
## Lemmas: the Walsh–Hadamard butterfly
-/

section TransformLemmas

variable {R : Type*} [CommRing R] {S : Type*} [CommRing S]

theorem butterfly_length : ∀ (n : ℕ) (v : List R), v.length = 2 ^ n →
    (butterfly n v).length = 2 ^ n := by
  intro n
  induction n with
  | zero => intro v hv; simpa [butterfly] using hv
  | succ n ih =>
    intro v hv
    have hpow : (2 : ℕ) ^ (n + 1) = 2 ^ n + 2 ^ n := by rw [pow_succ]; ring
    have ht : (v.take (2 ^ n)).length = 2 ^ n := by
      rw [List.length_take, hv]; omega
    have hd : (v.drop (2 ^ n)).length = 2 ^ n := by
      rw [List.length_drop, hv]; omega
    simp only [butterfly, List.length_append, List.length_zipWith, ih _ ht, ih _ hd]
    omega

/-- Exchange law for nested pointwise operations on four lists of equal
length; instantiated below with the four sign patterns of the butterfly. -/
theorem zipWith_exchange {f1 f2 f3 f4 f5 f6 : R → R → R}
    (H : ∀ x y z w, f1 (f2 x y) (f3 z w) = f4 (f5 x z) (f6 y w)) :
    ∀ (X Y Z W : List R), X.length = Y.length → X.length = Z.length →
      X.length = W.length →
      List.zipWith f1 (List.zipWith f2 X Y) (List.zipWith f3 Z W) =
        List.zipWith f4 (List.zipWith f5 X Z) (List.zipWith f6 Y W) := by
  intro X
  induction X with
  | nil =>
    intro Y Z W hY hZ hW
    have : Y = [] := List.length_eq_zero.mp (by simpa using hY.symm)
    subst this
    have : Z = [] := List.length_eq_zero.mp (by simpa using hZ.symm)
    subst this
    simp
  | cons x xs ih =>
    intro Y Z W hY hZ hW
    cases Y with
    | nil => simp at hY
    | cons y ys =>
      cases Z with
      | nil => simp at hZ
      | cons z zs =>
        cases W with
        | nil => simp at hW
        | cons w ws =>
          simp only [List.zipWith_cons_cons]
          rw [H, ih ys zs ws (by simpa using hY) (by simpa using hZ) (by simpa using hW)]

/-- Pointwise combination of sum and difference: `(A+B) + (A-B) = 2·A`. -/
theorem zipWith_add_sub : ∀ (A B : List R), A.length = B.length →
    List.zipWith (· + ·) (List.zipWith (· + ·) A B) (List.zipWith (· - ·) A B) =
      A.map (fun x => 2 * x) := by
  intro A
  induction A with
  | nil => intro B _; simp
  | cons x xs ih =>
    intro B hB
    cases B with
    | nil => simp at hB
    | cons y ys =>
      simp only [List.zipWith_cons_cons, List.map_cons, List.cons.injEq]
      exact ⟨by ring, ih ys (by simpa using hB)⟩

/-- Pointwise combination of sum and difference: `(A+B) - (A-B) = 2·B`. -/
theorem zipWith_sub_sub : ∀ (A B : List R), A.length = B.length →
    List.zipWith (· - ·) (List.zipWith (· + ·) A B) (List.zipWith (· - ·) A B) =
      B.map (fun x => 2 * x) := by
  intro A
  induction A with
  | nil =>
    intro B hB
    have : B = [] := List.length_eq_zero.mp (by simpa using hB.symm)
    subst this
    simp
  | cons x xs ih =>
    intro B hB
    cases B with
    | nil => simp at hB
    | cons y ys =>
      simp only [List.zipWith_cons_cons, List.map_cons, List.cons.injEq]
      exact ⟨by ring, ih ys (by simpa using hB)⟩

/-- `zipWith` of two mapped lists is the map of the `zipWith`, whenever the
map is a homomorphism for the pointwise operation. -/
theorem zipWith_map_both (f : R → S) {g : R → R → R} {h : S → S → S}
    (H : ∀ x y, f (g x y) = h (f x) (f y)) (X Y : List R) :
    List.zipWith h (X.map f) (Y.map f) = (List.zipWith g X Y).map f := by
  rw [List.zipWith_map_left, List.zipWith_map_right, List.map_zipWith]
  congr 1
  funext a b
  rw [H]

/-- The butterfly commutes with any map that preserves sums and
differences (used with ring homomorphisms and with scaling by a constant). -/
theorem butterfly_map (f : R → S)
    (hadd : ∀ x y, f (x + y) = f x + f y) (hsub : ∀ x y, f (x - y) = f x - f y) :
    ∀ (n : ℕ) (v : List R), butterfly n (v.map f) = (butterfly n v).map f := by
  intro n
  induction n with
  | zero => intro v; simp [butterfly]
  | succ n ih =>
    intro v
    simp only [butterfly, ← List.map_take, ← List.map_drop, ih,
      zipWith_map_both f hadd, zipWith_map_both f hsub, List.map_append]

end TransformLemmas

section ButterflyAlgebra

variable {R : Type*} [CommRing R]

theorem butterfly_zero_eq (v : List R) : butterfly 0 v = v := rfl

theorem butterfly_succ_eq (n : ℕ) (v : List R) :
    butterfly (n + 1) v =
      List.zipWith (· + ·) (butterfly n (v.take (2 ^ n))) (butterfly n (v.drop (2 ^ n)))
        ++ List.zipWith (· - ·) (butterfly n (v.take (2 ^ n))) (butterfly n (v.drop (2 ^ n))) :=
  rfl

theorem length_take_pow {n : ℕ} {v : List R} (hv : v.length = 2 ^ (n + 1)) :
    (v.take (2 ^ n)).length = 2 ^ n := by
  rw [List.length_take, hv]
  have : (2 : ℕ) ^ (n + 1) = 2 ^ n + 2 ^ n := by rw [pow_succ]; ring
  omega

theorem length_drop_pow {n : ℕ} {v : List R} (hv : v.length = 2 ^ (n + 1)) :
    (v.drop (2 ^ n)).length = 2 ^ n := by
  rw [List.length_drop, hv]
  have : (2 : ℕ) ^ (n + 1) = 2 ^ n + 2 ^ n := by rw [pow_succ]; ring
  omega

/-- The butterfly is additive on vectors of matching power-of-two length. -/
theorem butterfly_add : ∀ (n : ℕ) (A B : List R), A.length = 2 ^ n → B.length = 2 ^ n →
    butterfly n (List.zipWith (· + ·) A B) =
      List.zipWith (· + ·) (butterfly n A) (butterfly n B) := by
  intro n
  induction n with
  | zero => intro A B _ _; simp [butterfly]
  | succ n ih =>
    intro A B hA hB
    have htA := length_take_pow hA
    have hdA := length_drop_pow hA
    have htB := length_take_pow hB
    have hdB := length_drop_pow hB
    have hWtA := butterfly_length n _ htA
    have hWdA := butterfly_length n _ hdA
    have hWtB := butterfly_length n _ htB
    have hWdB := butterfly_length n _ hdB
    rw [butterfly_succ_eq, butterfly_succ_eq, butterfly_succ_eq, List.take_zipWith,
      List.drop_zipWith, ih _ _ htA htB, ih _ _ hdA hdB,
      List.zipWith_append _ _ _ _ _ (by rw [List.length_zipWith, List.length_zipWith,
        hWtA, hWdA, hWtB, hWdB])]
    congr 1
    · exact zipWith_exchange (by intro x y z w; ring) _ _ _ _ (by rw [hWtA, hWtB])
        (by rw [hWtA, hWdA]) (by rw [hWtA, hWdB])
    · exact zipWith_exchange (by intro x y z w; ring) _ _ _ _ (by rw [hWtA, hWtB])
        (by rw [hWtA, hWdA]) (by rw [hWtA, hWdB])

/-- The butterfly respects pointwise differences on vectors of matching
power-of-two length. -/
theorem butterfly_sub : ∀ (n : ℕ) (A B : List R), A.length = 2 ^ n → B.length = 2 ^ n →
    butterfly n (List.zipWith (· - ·) A B) =
      List.zipWith (· - ·) (butterfly n A) (butterfly n B) := by
  intro n
  induction n with
  | zero => intro A B _ _; simp [butterfly]
  | succ n ih =>
    intro A B hA hB
    have htA := length_take_pow hA
    have hdA := length_drop_pow hA
    have htB := length_take_pow hB
    have hdB := length_drop_pow hB
    have hWtA := butterfly_length n _ htA
    have hWdA := butterfly_length n _ hdA
    have hWtB := butterfly_length n _ htB
    have hWdB := butterfly_length n _ hdB
    rw [butterfly_succ_eq, butterfly_succ_eq, butterfly_succ_eq, List.take_zipWith,
      List.drop_zipWith, ih _ _ htA htB, ih _ _ hdA hdB,
      List.zipWith_append _ _ _ _ _ (by rw [List.length_zipWith, List.length_zipWith,
        hWtA, hWdA, hWtB, hWdB])]
    congr 1
    · exact zipWith_exchange (by intro x y z w; ring) _ _ _ _ (by rw [hWtA, hWtB])
        (by rw [hWtA, hWdA]) (by rw [hWtA, hWdB])
    · exact zipWith_exchange (by intro x y z w; ring) _ _ _ _ (by rw [hWtA, hWtB])
        (by rw [hWtA, hWdA]) (by rw [hWtA, hWdB])

/-- Applying the unnormalized butterfly twice multiplies every entry by
`2 ^ n`. -/
theorem butterfly_butterfly : ∀ (n : ℕ) (v : List R), v.length = 2 ^ n →
    butterfly n (butterfly n v) = v.map (fun x => (2 : R) ^ n * x) := by
  intro n
  induction n with
  | zero =>
    intro v _
    rw [butterfly_zero_eq, butterfly_zero_eq]
    simp
  | succ n ih =>
    intro v hv
    have ht := length_take_pow hv
    have hd := length_drop_pow hv
    have hWt := butterfly_length n _ ht
    have hWd := butterfly_length n _ hd
    have hzl : (List.zipWith (· + ·) (butterfly n (v.take (2 ^ n)))
        (butterfly n (v.drop (2 ^ n)))).length = 2 ^ n := by
      rw [List.length_zipWith, hWt, hWd, min_self]
    rw [butterfly_succ_eq, butterfly_succ_eq, List.take_left' hzl, List.drop_left' hzl,
      butterfly_add n _ _ hWt hWd, butterfly_sub n _ _ hWt hWd,
      ih _ ht, ih _ hd,
      zipWith_add_sub _ _ (by rw [List.length_map, List.length_map, ht, hd]),
      zipWith_sub_sub _ _ (by rw [List.length_map, List.length_map, ht, hd]),
      List.map_map, List.map_map]
    have hfun : ((fun x => (2 : R) * x) ∘ fun x => (2 : R) ^ n * x) =
        fun x => (2 : R) ^ (n + 1) * x := by
      funext x
      simp only [Function.comp_apply, pow_succ]
      ring
    rw [hfun, ← List.map_append, List.take_append_drop]

theorem applyWalshHadamard_length {c : R} {n : ℕ} {v : List R} (hv : v.length = 2 ^ n) :
    (applyWalshHadamard c n v).length = 2 ^ n := by
  unfold applyWalshHadamard
  rw [List.length_map, butterfly_length n v hv]

/-- The normalized Walsh–Hadamard transform is an involution in any
commutative ring whose scaling constant `c` satisfies `2·c·c = 1`
(in particular for `c = 1/√2`). -/
theorem wh_wh {c : R} (hc : 2 * (c * c) = 1) (n : ℕ) (v : List R)
    (hv : v.length = 2 ^ n) :
    applyWalshHadamard c n (applyWalshHadamard c n v) = v := by
  unfold applyWalshHadamard
  rw [butterfly_map (fun x => c ^ n * x) (fun x y => mul_add _ x y)
    (fun x y => mul_sub _ x y) n (butterfly n v),
    butterfly_butterfly n v hv, List.map_map, List.map_map]
  have hfun : (((fun x => c ^ n * x) ∘ fun x => c ^ n * x) ∘ fun x => (2 : R) ^ n * x) =
      fun x => x := by
    funext x
    have h1 : (c * c * 2 : R) = 1 := by rw [mul_comm (c * c) 2]; exact hc
    have h2 : (c * c * 2 : R) ^ n = 1 := by rw [h1, one_pow]
    calc c ^ n * (c ^ n * ((2 : R) ^ n * x)) = (c * c * 2 : R) ^ n * x := by
          rw [mul_pow, mul_pow]; ring
    _ = x := by rw [h2, one_mul]
  rw [hfun, List.map_id']

end ButterflyAlgebra

/-!
## Lemmas: circuit state pipeline
-/

section StateLemmas

variable {R : Type*} [CommRing R]

theorem initState_length (n : ℕ) : (initState n : List R).length = 2 ^ n := by
  simp [initState]

theorem initState_eq (n : ℕ) :
    (initState n : List R) = 1 :: List.replicate (2 ^ n - 1) 0 := by
  have hpos : 0 < 2 ^ n := pow_pos (by norm_num) n
  have hsplit : 2 ^ n = (2 ^ n - 1) + 1 := by omega
  rw [initState, hsplit, List.range_succ_eq_map, List.map_cons, if_pos rfl, List.map_map]
  congr 1
  have hz : ∀ i ∈ List.range (2 ^ n - 1),
      ((fun i => if i = 0 then (1 : R) else 0) ∘ Nat.succ) i = (fun _ => (0 : R)) i := by
    intro i _
    simp [Function.comp]
  rw [List.map_congr_left hz]
  have := List.map_const (List.range (2 ^ n - 1)) (0 : R)
  simpa [Function.const] using this

theorem initState_take (n : ℕ) :
    (initState (n + 1) : List R).take (2 ^ n) = initState n := by
  have hinf : (2 : ℕ) ^ n ⊓ 2 ^ (n + 1) = 2 ^ n :=
    inf_eq_left.mpr (Nat.pow_le_pow_right (by norm_num) (Nat.le_succ n))
  unfold initState
  rw [← List.map_take, List.take_range, hinf]

theorem initState_drop (n : ℕ) :
    (initState (n + 1) : List R).drop (2 ^ n) = List.replicate (2 ^ n) 0 := by
  have hpow : (2 : ℕ) ^ (n + 1) = 2 ^ n + 2 ^ n := by rw [pow_succ]; ring
  apply List.ext_getElem
  · rw [List.length_drop, initState_length, List.length_replicate, hpow,
      Nat.add_sub_cancel]
  · intro i h1 h2
    rw [List.length_replicate] at h2
    rw [List.getElem_drop, List.getElem_replicate]
    unfold initState
    rw [List.getElem_map, List.getElem_range, if_neg (by positivity)]

theorem butterfly_replicate_zero (n : ℕ) :
    butterfly n (List.replicate (2 ^ n) (0 : R)) = List.replicate (2 ^ n) 0 := by
  induction n with
  | zero => rfl
  | succ n ih =>
    have hpow : (2 : ℕ) ^ (n + 1) = 2 ^ n + 2 ^ n := by rw [pow_succ]; ring
    rw [butterfly_succ_eq, List.take_replicate, List.drop_replicate]
    have h1 : 2 ^ n ⊓ 2 ^ (n + 1) = 2 ^ n :=
      inf_eq_left.mpr (Nat.pow_le_pow_right (by norm_num) (by omega))
    have h2 : 2 ^ (n + 1) - 2 ^ n = 2 ^ n := by rw [hpow, Nat.add_sub_cancel]
    rw [h1, h2, ih, List.zipWith_replicate, List.zipWith_replicate, min_self,
      add_zero, sub_zero, ← List.replicate_add]
    congr 1
    omega

theorem butterfly_initState (n : ℕ) :
    butterfly n (initState n : List R) = List.replicate (2 ^ n) 1 := by
  induction n with
  | zero => rfl
  | succ n ih =>
    have hpow : (2 : ℕ) ^ (n + 1) = 2 ^ n + 2 ^ n := by rw [pow_succ]; ring
    rw [butterfly_succ_eq, initState_take, initState_drop, ih, butterfly_replicate_zero,
      List.zipWith_replicate, List.zipWith_replicate, min_self, add_zero, sub_zero,
      ← List.replicate_add]
    congr 1
    omega

/-- The first entry of the butterfly of a vector is the sum of its entries. -/
theorem butterfly_getD_zero : ∀ (n : ℕ) (v : List R), v.length = 2 ^ n →
    (butterfly n v).getD 0 0 = v.sum := by
  intro n
  induction n with
  | zero =>
    intro v hv
    obtain ⟨x, rfl⟩ := List.length_eq_one.mp (by simpa using hv)
    simp [butterfly_zero_eq]
  | succ n ih =>
    intro v hv
    have ht := length_take_pow hv
    have hd := length_drop_pow hv
    have hWt := butterfly_length n _ ht
    have hWd := butterfly_length n _ hd
    have hzl : (List.zipWith (· + ·) (butterfly n (v.take (2 ^ n)))
        (butterfly n (v.drop (2 ^ n)))).length = 2 ^ n := by
      rw [List.length_zipWith, hWt, hWd, min_self]
    have hpos : 0 < 2 ^ n := pow_pos (by norm_num) n
    rw [butterfly_succ_eq, List.getD_append _ _ _ 0 (by omega),
      List.getD_eq_getElem _ _ (by omega), List.getElem_zipWith]
    rw [show (butterfly n (v.take (2 ^ n)))[0] =
        (butterfly n (v.take (2 ^ n))).getD 0 0 from
      (List.getD_eq_getElem _ _ (by omega)).symm]
    rw [show (butterfly n (v.drop (2 ^ n)))[0] =
        (butterfly n (v.drop (2 ^ n))).getD 0 0 from
      (List.getD_eq_getElem _ _ (by omega)).symm]
    rw [ih _ ht, ih _ hd, ← List.sum_append, List.take_append_drop]

/-- Entrywise multiplication by an all-ones phase vector is the identity. -/
theorem applyDiagonal_ones (N : ℕ) (v : List R) (hv : v.length = N) :
    applyDiagonal (List.replicate N 1) v = v := by
  induction v generalizing N with
  | nil => subst hv; rfl
  | cons x xs ih =>
    subst hv
    rw [List.length_cons, List.replicate_succ]
    unfold applyDiagonal
    rw [List.zipWith_cons_cons]
    have hx : ((1 : ℤ) : R) * x = x := by rw [Int.cast_one, one_mul]
    rw [hx]
    congr 1
    exact ih xs.length rfl

/-- Entrywise multiplication of a constant vector by the phase vector. -/
theorem applyDiagonal_replicate (phases : List ℤ) (x : R) :
    applyDiagonal phases (List.replicate phases.length x) =
      phases.map (fun (p : ℤ) => (p : R) * x) := by
  induction phases with
  | nil => rfl
  | cons p ps ih =>
    rw [List.length_cons, List.replicate_succ]
    unfold applyDiagonal at ih ⊢
    rw [List.zipWith_cons_cons, List.map_cons, ih]

theorem applyWalshHadamard_initState (c : R) (n : ℕ) :
    applyWalshHadamard c n (initState n) = List.replicate (2 ^ n) (c ^ n) := by
  unfold applyWalshHadamard
  rw [butterfly_initState, List.map_replicate, mul_one]

end StateLemmas

/-!
## Lemmas: norm preservation
-/

section SumSqLemmas

variable {R : Type*} [CommRing R]

theorem sumSq_cons (x : R) (l : List R) : sumSq (x :: l) = x * x + sumSq l := by
  simp [sumSq]

theorem sumSq_append (P Q : List R) : sumSq (P ++ Q) = sumSq P + sumSq Q := by
  simp [sumSq]

theorem sumSq_add_sub : ∀ (A B : List R), A.length = B.length →
    sumSq (List.zipWith (· + ·) A B) + sumSq (List.zipWith (· - ·) A B) =
      2 * sumSq A + 2 * sumSq B := by
  intro A
  induction A with
  | nil =>
    intro B hB
    have : B = [] := List.length_eq_zero.mp (by simpa using hB.symm)
    subst this
    simp [sumSq]
  | cons x xs ih =>
    intro B hB
    cases B with
    | nil => simp at hB
    | cons y ys =>
      have h := ih ys (by simpa using hB)
      simp only [List.zipWith_cons_cons, sumSq_cons]
      linear_combination h

theorem sumSq_butterfly : ∀ (n : ℕ) (v : List R), v.length = 2 ^ n →
    sumSq (butterfly n v) = 2 ^ n * sumSq v := by
  intro n
  induction n with
  | zero => intro v _; rw [butterfly_zero_eq, pow_zero, one_mul]
  | succ n ih =>
    intro v hv
    have ht := length_take_pow hv
    have hd := length_drop_pow hv
    have hWt := butterfly_length n _ ht
    have hWd := butterfly_length n _ hd
    rw [butterfly_succ_eq, sumSq_append,
      sumSq_add_sub _ _ (by rw [hWt, hWd]), ih _ ht, ih _ hd]
    have hsplit : sumSq (v.take (2 ^ n)) + sumSq (v.drop (2 ^ n)) = sumSq v := by
      rw [← sumSq_append, List.take_append_drop]
    calc 2 * (2 ^ n * sumSq (v.take (2 ^ n))) + 2 * (2 ^ n * sumSq (v.drop (2 ^ n)))
        = 2 ^ (n + 1) * (sumSq (v.take (2 ^ n)) + sumSq (v.drop (2 ^ n))) := by
          rw [pow_succ]; ring
    _ = 2 ^ (n + 1) * sumSq v := by rw [hsplit]

theorem sumSq_map_mul (c : R) (v : List R) :
    sumSq (v.map (fun x => c * x)) = c * c * sumSq v := by
  unfold sumSq
  rw [List.map_map]
  have hfun : ((fun x => x * x) ∘ fun x => c * x) = fun x => c * c * (x * x) := by
    funext x
    simp only [Function.comp_apply]
    ring
  rw [hfun]
  exact List.sum_map_mul_left v (fun x => x * x) (c * c)

/-- The normalized Walsh–Hadamard transform preserves the sum of squared
amplitudes. -/
theorem sumSq_applyWalshHadamard {c : R} (hc : 2 * (c * c) = 1) (n : ℕ)
    (v : List R) (hv : v.length = 2 ^ n) :
    sumSq (applyWalshHadamard c n v) = sumSq v := by
  unfold applyWalshHadamard
  rw [sumSq_map_mul, sumSq_butterfly n v hv]
  have h1 : (c * c * 2 : R) = 1 := by rw [mul_comm]; exact hc
  calc c ^ n * c ^ n * (2 ^ n * sumSq v) = (c * c * 2) ^ n * sumSq v := by
        rw [mul_pow, mul_pow]; ring
  _ = sumSq v := by rw [h1, one_pow, one_mul]

end SumSqLemmas

/-!
## Lemmas: the scan state in closed form
-/

theorem scanState_eq {line : List ℤ} (hne : line ≠ []) :
    scanState line =
      (butterfly (nQubits line.length)
          ((create_oracle line).map (fun (p : ℤ) => (p : Qs2)))).map
        (fun x => Qs2.rt2inv ^ nQubits line.length *
          (x * Qs2.rt2inv ^ nQubits line.length)) := by
  unfold scanState
  rw [applyWalshHadamard_initState]
  have hlen := create_oracle_length hne
  rw [show List.replicate (2 ^ nQubits line.length)
        (Qs2.rt2inv ^ nQubits line.length) =
      List.replicate (create_oracle line).length
        (Qs2.rt2inv ^ nQubits line.length) from by rw [hlen]]
  rw [applyDiagonal_replicate]
  unfold applyWalshHadamard
  rw [show (create_oracle line).map
        (fun (p : ℤ) => (p : Qs2) * Qs2.rt2inv ^ nQubits line.length) =
      ((create_oracle line).map (fun (p : ℤ) => (p : Qs2))).map
        (fun x => x * Qs2.rt2inv ^ nQubits line.length) from by
      rw [List.map_map]; rfl]
  rw [butterfly_map (fun x => x * Qs2.rt2inv ^ nQubits line.length)
    (fun x y => add_mul x y _) (fun x y => sub_mul x y _), List.map_map]
  rfl

theorem scanState_getD_zero {line : List ℤ} (hne : line ≠ []) :
    (scanState line).getD 0 0 =
      Qs2.ofQ (((create_oracle line).sum : ℚ) / 2 ^ nQubits line.length) := by
  have hlen := create_oracle_length hne
  have hclen : ((create_oracle line).map (fun (p : ℤ) => (p : Qs2))).length =
      2 ^ nQubits line.length := by
    rw [List.length_map, hlen]
  have hblen := butterfly_length (nQubits line.length) _ hclen
  have hpos : 0 < 2 ^ nQubits line.length := pow_pos (by norm_num) _
  rw [scanState_eq hne,
    List.getD_eq_getElem _ _ (by rw [List.length_map, hblen]; omega),
    List.getElem_map]
  have h0 : (butterfly (nQubits line.length)
      ((create_oracle line).map (fun (p : ℤ) => (p : Qs2))))[0] =
        (((create_oracle line).sum : ℤ) : Qs2) := by
    rw [show (butterfly (nQubits line.length)
          ((create_oracle line).map (fun (p : ℤ) => (p : Qs2))))[0] =
        (butterfly (nQubits line.length)
          ((create_oracle line).map (fun (p : ℤ) => (p : Qs2)))).getD 0 0 from
      (List.getD_eq_getElem _ _ (by omega)).symm]
    rw [butterfly_getD_zero _ _ hclen]
    have hcast : (create_oracle line).map (fun (p : ℤ) => (p : Qs2)) =
        (create_oracle line).map (Int.castRingHom Qs2) := by
      rw [Int.coe_castRingHom]
    rw [hcast]
    exact (map_list_sum (Int.castRingHom Qs2) _).symm
  rw [h0, Qs2.ofQ_intCast]
  have hcomb : Qs2.rt2inv ^ nQubits line.length *
      (Qs2.ofQ ((create_oracle line).sum : ℚ) * Qs2.rt2inv ^ nQubits line.length) =
      (Qs2.rt2inv * Qs2.rt2inv) ^ nQubits line.length *
        Qs2.ofQ ((create_oracle line).sum : ℚ) := by
    rw [mul_pow]
    ring
  rw [hcomb, Qs2.rt2inv_sq, Qs2.ofQ_pow, Qs2.ofQ_mul]
  congr 1
  rw [div_pow, one_pow, div_mul_eq_mul_div, one_mul]

theorem probZero_eq {line : List ℤ} (hne : line ≠ []) :
    probZero line =
      (((create_oracle line).sum : ℚ) / 2 ^ nQubits line.length) ^ 2 := by
  unfold probZero
  rw [scanState_getD_zero hne, Qs2.ofQ_mul, Qs2.ofQ_a, pow_two]

/-- The `.a` projection in `probZero` is lossless: the probability of basis
state 0 really is the square of the basis-0 amplitude of the pipeline. -/
theorem ofQ_probZero {line : List ℤ} (hne : line ≠ []) :
    Qs2.ofQ (probZero line) =
      (scanState line).getD 0 0 * (scanState line).getD 0 0 := by
  unfold probZero
  rw [scanState_getD_zero hne, Qs2.ofQ_mul, Qs2.ofQ_a]

theorem probZero_nonneg {line : List ℤ} (hne : line ≠ []) : 0 ≤ probZero line := by
  rw [probZero_eq hne]
  positivity

theorem scanState_zero_line {line : List ℤ} (hne : line ≠ [])
    (h0 : ∀ x ∈ line, x = 0) :
    scanState line = initState (nQubits line.length) := by
  unfold scanState
  rw [create_oracle_all_zero h0 hne,
    applyDiagonal_ones _ _ (applyWalshHadamard_length (initState_length _))]
  exact wh_wh Qs2.two_rt2inv_sq _ _ (initState_length _)

theorem probDist_zero_line {line : List ℤ} (hne : line ≠ [])
    (h0 : ∀ x ∈ line, x = 0) :
    probDist line = 1 :: List.replicate (2 ^ nQubits line.length - 1) 0 := by
  unfold probDist
  rw [scanState_zero_line hne h0, initState_eq, List.map_cons, List.map_replicate]
  simp

theorem getD_replicate {α : Type*} (x : α) :
    ∀ (n i : ℕ), (List.replicate n x).getD i x = x := by
  intro n
  induction n with
  | zero => intro i; simp
  | succ n ih =>
    intro i
    cases i with
    | zero => rw [List.replicate_succ, List.getD_cons_zero]
    | succ i => rw [List.replicate_succ, List.getD_cons_succ]; exact ih i

/-!
## Lemmas: the verdict
-/

theorem quantum_scan_line_eq {line : List ℤ} (hne : line ≠ []) (samples : List ℕ) :
    quantum_scan_line line false samples =
      .verdict (if samples.count 0 < shotCount line then "DETECT" else "MISS") := by
  have hE : line.isEmpty = false := List.isEmpty_eq_false.mpr hne
  simp [quantum_scan_line, hE]

theorem quantum_scan_line_draw_eq {line : List ℤ} (hne : line ≠ [])
    (samples : List ℕ) :
    quantum_scan_line line true samples = .circuit (buildCircuit line) := by
  have hE : line.isEmpty = false := List.isEmpty_eq_false.mpr hne
  simp [quantum_scan_line, hE]

/-!
## Lemmas: sums of ±1 vectors
-/

theorem list_sum_le_length : ∀ (l : List ℤ), (∀ x ∈ l, x ≤ 1) →
    l.sum ≤ (l.length : ℤ) := by
  intro l
  induction l with
  | nil => intro _; simp
  | cons x xs ih =>
    intro h
    rw [List.sum_cons, List.length_cons]
    have hx : x ≤ 1 := h x (by simp)
    have hxs := ih (fun y hy => h y (by simp [hy]))
    push_cast
    omega

theorem neg_length_le_list_sum : ∀ (l : List ℤ), (∀ x ∈ l, -1 ≤ x) →
    -(l.length : ℤ) ≤ l.sum := by
  intro l
  induction l with
  | nil => intro _; simp
  | cons x xs ih =>
    intro h
    rw [List.sum_cons, List.length_cons]
    have hx : -1 ≤ x := h x (by simp)
    have hxs := ih (fun y hy => h y (by simp [hy]))
    push_cast
    omega

/-- A ±1 vector containing both a `-1` and a `+1` has a sum of absolute
value at most its length minus 2. -/
theorem sum_bounds_mixed {l : List ℤ} (hall : ∀ x ∈ l, x = 1 ∨ x = -1)
    (hneg : (-1 : ℤ) ∈ l) (hpos : (1 : ℤ) ∈ l) :
    l.sum ≤ (l.length : ℤ) - 2 ∧ -((l.length : ℤ) - 2) ≤ l.sum := by
  constructor
  · obtain ⟨s, t, rfl⟩ := List.append_of_mem hneg
    rw [List.sum_append, List.sum_cons, List.length_append, List.length_cons]
    have hs := list_sum_le_length s (fun x hx => by
      rcases hall x (by simp [hx]) with h | h <;> omega)
    have ht := list_sum_le_length t (fun x hx => by
      rcases hall x (by simp [hx]) with h | h <;> omega)
    push_cast
    omega
  · obtain ⟨s, t, rfl⟩ := List.append_of_mem hpos
    rw [List.sum_append, List.sum_cons, List.length_append, List.length_cons]
    have hs := neg_length_le_list_sum s (fun x hx => by
      rcases hall x (by simp [hx]) with h | h <;> omega)
    have ht := neg_length_le_list_sum t (fun x hx => by
      rcases hall x (by simp [hx]) with h | h <;> omega)
    push_cast
    omega

/-!
## Lemmas: ship placement invariants
-/

theorem shipCells_nodup (a : Attempt) (length : ℕ) : (shipCells a length).Nodup := by
  unfold shipCells
  apply List.Nodup.map_on _ (List.nodup_range length)
  intro x _ y _ hxy
  by_cases ha : a.horizontal <;> simp [ha, Prod.ext_iff] at hxy <;> omega

theorem shipCells_mem_bounds {size length : ℕ} {a : Attempt}
    (hv : validAttempt size length a) {rc : ℕ × ℕ} (hm : rc ∈ shipCells a length) :
    rc.1 < size ∧ rc.2 < size := by
  unfold shipCells at hm
  obtain ⟨i, hi, hrc⟩ := List.mem_map.mp hm
  rw [List.mem_range] at hi
  unfold validAttempt at hv
  by_cases ha : a.horizontal <;> rw [← hrc] <;> simp [ha] at hv ⊢ <;> omega

theorem placeOne_cons (length : ℕ) (a : Attempt) (rest : List Attempt)
    (coords : List (ℕ × ℕ)) :
    placeOne length (a :: rest) coords =
      if ∀ cell ∈ shipCells a length, cell ∉ coords then coords ++ shipCells a length
      else placeOne length rest coords := rfl

theorem placeOne_invariant (size length : ℕ) :
    ∀ (attempts : List Attempt) (coords : List (ℕ × ℕ)),
      (∀ a ∈ attempts, validAttempt size length a) →
      (∀ rc ∈ coords, rc.1 < size ∧ rc.2 < size) → coords.Nodup →
      (∀ rc ∈ placeOne length attempts coords, rc.1 < size ∧ rc.2 < size) ∧
        (placeOne length attempts coords).Nodup := by
  intro attempts
  induction attempts with
  | nil => intro coords _ hb hn; exact ⟨hb, hn⟩
  | cons a rest ih =>
    intro coords hva hb hn
    by_cases hc : ∀ cell ∈ shipCells a length, cell ∉ coords
    · rw [placeOne_cons, if_pos hc]
      constructor
      · intro rc hrc
        rcases List.mem_append.mp hrc with h | h
        · exact hb _ h
        · exact shipCells_mem_bounds (hva a (by simp)) h
      · rw [List.nodup_append]
        exact ⟨hn, shipCells_nodup a length, fun x hx hxc => (hc x hxc) hx⟩
    · rw [placeOne_cons, if_neg hc]
      exact ih coords (fun b hb2 => hva b (by simp [hb2])) hb hn

theorem place_ships_invariant (size : ℕ) (lengths : List ℕ) (rng : List (List Attempt))
    (hv : ∀ p ∈ lengths.zip rng, ∀ a ∈ p.2, validAttempt size p.1 a) :
    (∀ rc ∈ place_ships size lengths rng, rc.1 < size ∧ rc.2 < size) ∧
      (place_ships size lengths rng).Nodup := by
  unfold place_ships
  have main : ∀ (ps : List (ℕ × List Attempt)) (coords : List (ℕ × ℕ)),
      (∀ p ∈ ps, ∀ a ∈ p.2, validAttempt size p.1 a) →
      (∀ rc ∈ coords, rc.1 < size ∧ rc.2 < size) → coords.Nodup →
      (∀ rc ∈ ps.foldl (fun coords p => placeOne p.1 (p.2.take 100) coords) coords,
          rc.1 < size ∧ rc.2 < size) ∧
        (ps.foldl (fun coords p => placeOne p.1 (p.2.take 100) coords) coords).Nodup := by
    intro ps
    induction ps with
    | nil => intro coords _ hb hn; exact ⟨hb, hn⟩
    | cons p ps ih =>
      intro coords hvp hb hn
      rw [List.foldl_cons]
      have hone := placeOne_invariant size p.1 (p.2.take 100) coords
        (fun a ha => hvp p (by simp) a (List.take_subset 100 p.2 ha)) hb hn
      exact ih _ (fun q hq => hvp q (by simp [hq])) hone.1 hone.2
  exact main _ [] hv (by simp) List.nodup_nil

@[simp] theorem Qs2.ofQ_neg (q : ℚ) : -Qs2.ofQ q = Qs2.ofQ (-q) := by
  apply Qs2.ext2 <;> simp

/-!
## The claims
-/

/-- C1: for every non-empty line, with the `SHOTS = n+1` samples the
simulator returns, `quantum_scan_line` answers MISS iff every sample is the
all-zero basis state (index 0), and DETECT iff at least one sample is any
other index. -/
theorem claim_C1 (line : List ℤ) (samples : List ℕ) (hne : line ≠ [])
    (hlen : samples.length = shotCount line) :
    (quantum_scan_line line false samples = ScanResult.verdict "MISS" ↔
      ∀ s ∈ samples, s = 0) ∧
    (quantum_scan_line line false samples = ScanResult.verdict "DETECT" ↔
      ∃ s ∈ samples, s ≠ 0) := by
  rw [quantum_scan_line_eq hne]
  have hcle := List.count_le_length 0 samples
  by_cases h : samples.count 0 < shotCount line
  · rw [if_pos h]
    have hnall : ¬ ∀ s ∈ samples, s = 0 := by
      intro hall
      have := List.count_eq_length.mpr (fun b hb => (hall b hb).symm)
      rw [hlen] at this
      omega
    constructor
    · exact iff_of_false (by decide) hnall
    · refine iff_of_true rfl ?_
      by_contra hnone
      push_neg at hnone
      exact hnall hnone
  · rw [if_neg h]
    rw [hlen] at hcle
    have hcnt : samples.count 0 = samples.length := by omega
    have hall : ∀ s ∈ samples, s = 0 := by
      intro s hs
      exact (List.count_eq_length.mp hcnt s hs).symm
    constructor
    · exact iff_of_true rfl hall
    · refine iff_of_false (by decide) ?_
      rintro ⟨s, hs, hs0⟩
      exact hs0 (hall s hs)

theorem claim_C1_witness :
    (quantum_scan_line [1] false [0, 0] = ScanResult.verdict "MISS" ↔
      ∀ s ∈ ([0, 0] : List ℕ), s = 0) ∧
    (quantum_scan_line [1] false [0, 0] = ScanResult.verdict "DETECT" ↔
      ∃ s ∈ ([0, 0] : List ℕ), s ≠ 0) :=
  claim_C1 [1] [0, 0] (by decide) (by decide)

/-- C4: for every non-empty line of length L, the phase vector built by
`create_oracle` has length exactly `2 ^ n` with `n = max(1, ceil(log2 L))`
(`ceilLog2` is the least `k` with `L ≤ 2 ^ k`), entry `i < L` is `-1` iff
`line[i]` is truthy and `+1` otherwise, and all padding entries in
`[L, 2 ^ n)` are `+1`. -/
theorem claim_C4 (line : List ℤ) (hne : line ≠ []) :
    nQubits line.length = max 1 (ceilLog2 line.length) ∧
    line.length ≤ 2 ^ ceilLog2 line.length ∧
    (∀ k, line.length ≤ 2 ^ k → ceilLog2 line.length ≤ k) ∧
    (create_oracle line).length = 2 ^ nQubits line.length ∧
    (∀ i (h : i < line.length), (create_oracle line).getD i 0 =
      if line.get ⟨i, h⟩ ≠ 0 then -1 else 1) ∧
    (∀ i, line.length ≤ i → i < 2 ^ nQubits line.length →
      (create_oracle line).getD i 0 = 1) := by
  refine ⟨nQubits_eq_max _, (ceilLog2_spec _).1, (ceilLog2_spec _).2,
    create_oracle_length hne, ?_, ?_⟩
  · intro i h
    have hi2 : i < 2 ^ nQubits line.length := lt_of_lt_of_le h (le_two_pow_nQubits _)
    rw [create_oracle_getD hne i hi2, List.getD_eq_getElem _ _ h, List.get_eq_getElem]
    simp [h]
  · intro i h1 h2
    rw [create_oracle_getD hne i h2, if_neg]
    rintro ⟨hlt, _⟩
    omega

theorem claim_C4_witness :
    nQubits ([1] : List ℤ).length = max 1 (ceilLog2 ([1] : List ℤ).length) ∧
    ([1] : List ℤ).length ≤ 2 ^ ceilLog2 ([1] : List ℤ).length ∧
    (∀ k, ([1] : List ℤ).length ≤ 2 ^ k → ceilLog2 ([1] : List ℤ).length ≤ k) ∧
    (create_oracle [1]).length = 2 ^ nQubits ([1] : List ℤ).length ∧
    (∀ i (h : i < ([1] : List ℤ).length), (create_oracle [1]).getD i 0 =
      if ([1] : List ℤ).get ⟨i, h⟩ ≠ 0 then -1 else 1) ∧
    (∀ i, ([1] : List ℤ).length ≤ i → i < 2 ^ nQubits ([1] : List ℤ).length →
      (create_oracle [1]).getD i 0 = 1) :=
  claim_C4 [1] (by decide)

/-- C5 counterexample: a line containing the non-binary value 2 does not
fail: `create_oracle` treats it exactly like a marked cell, returning the
same phase vector as for `[1]`.  This refutes the claim that scanning such a
line fails with an `InvalidInput` condition instead of interpreting the
value. -/
theorem claim_C5_counterexample :
    create_oracle [2] = [-1, 1] ∧ create_oracle [2] = create_oracle [1] := by
  constructor <;> decide

/-- C5 (amended): the code never validates the line: any nonzero (truthy)
value is interpreted as a marked cell and any zero as empty, so both
`create_oracle` and `quantum_scan_line` behave on an arbitrary integer line
exactly as on its 0/1 truthiness-normalization. -/
theorem claim_C5 (line : List ℤ) :
    create_oracle line = create_oracle (line.map (fun x => if x = 0 then 0 else (1 : ℤ))) ∧
    (∀ (draw : Bool) (samples : List ℕ),
      quantum_scan_line line draw samples =
        quantum_scan_line (line.map (fun x => if x = 0 then 0 else (1 : ℤ))) draw samples) := by
  have hlen : (line.map (fun x => if x = 0 then 0 else (1 : ℤ))).length = line.length :=
    List.length_map _ _
  have hE : (line.map (fun x => if x = 0 then 0 else (1 : ℤ))).isEmpty = line.isEmpty := by
    cases line <;> simp
  have hkey : create_oracle line =
      create_oracle (line.map (fun x => if x = 0 then 0 else (1 : ℤ))) := by
    by_cases hne : line = []
    · subst hne; rfl
    · have hne2 : line.map (fun x => if x = 0 then 0 else (1 : ℤ)) ≠ [] := by
        intro h
        exact hne (List.map_eq_nil_iff.mp h)
      apply List.ext_getElem
      · rw [create_oracle_length hne, create_oracle_length hne2, hlen]
      · intro i h1 h2
        have h1b : i < 2 ^ nQubits line.length := by
          rw [← create_oracle_length hne]; exact h1
        have h2b : i < 2 ^ nQubits (line.map (fun x => if x = 0 then 0 else (1 : ℤ))).length := by
          rw [← create_oracle_length hne2]; exact h2
        rw [← List.getD_eq_getElem (create_oracle line) 0 h1,
          ← List.getD_eq_getElem (create_oracle (line.map (fun x => if x = 0 then 0 else (1 : ℤ)))) 0 h2,
          create_oracle_getD hne i h1b, create_oracle_getD hne2 i h2b, hlen]
        by_cases hi : i < line.length
        · have hmap : (line.map (fun x => if x = 0 then 0 else (1 : ℤ))).getD i 0 =
              if line.getD i 0 = 0 then 0 else 1 := by
            rw [List.getD_eq_getElem _ _
                (show i < (line.map (fun x => if x = 0 then 0 else (1 : ℤ))).length from by
                  rw [hlen]; exact hi),
              List.getElem_map, List.getD_eq_getElem _ _ hi]
          rw [hmap]
          by_cases hz : line.getD i 0 = 0 <;> simp [hz, hi]
        · simp [hi]
  refine ⟨hkey, fun draw samples => ?_⟩
  have hsc : shotCount (line.map (fun x => if x = 0 then 0 else (1 : ℤ))) = shotCount line := by
    unfold shotCount
    rw [hlen]
  have hbc : buildCircuit (line.map (fun x => if x = 0 then 0 else (1 : ℤ))) =
      buildCircuit line := by
    unfold buildCircuit
    rw [hlen, ← hkey]
  simp only [quantum_scan_line, hE, hbc, hsc]

/-- C6: the empty line short-circuits: `quantum_scan_line` returns the MISS
verdict whatever `draw` and whatever the simulator would have sampled (no
circuit is built and no transform is applied), and `create_oracle []`
returns the single-entry phase vector `[+1]` instead of failing. -/
theorem claim_C6 :
    (∀ (draw : Bool) (samples : List ℕ),
      quantum_scan_line [] draw samples = ScanResult.verdict "MISS") ∧
    create_oracle [] = [1] := by
  constructor
  · intro draw samples
    rfl
  · rfl

/-- C8: the normalized Walsh–Hadamard transform is an involution — applying
it twice to any amplitude vector of length `2 ^ n` (over any commutative
ring whose constant `c` satisfies `2·c² = 1`, e.g. `c = 1/√2` in ℚ(√2) or ℝ)
returns the original vector — and it is norm-preserving: it leaves the sum
of squared amplitudes unchanged. -/
theorem claim_C8 {R : Type*} [CommRing R] (c : R) (hc : 2 * (c * c) = 1) (n : ℕ)
    (v : List R) (hv : v.length = 2 ^ n) :
    applyWalshHadamard c n (applyWalshHadamard c n v) = v ∧
    sumSq (applyWalshHadamard c n v) = sumSq v :=
  ⟨wh_wh hc n v hv, sumSq_applyWalshHadamard hc n v hv⟩

theorem claim_C8_witness :
    applyWalshHadamard Qs2.rt2inv 1 (applyWalshHadamard Qs2.rt2inv 1 [1, 0]) =
      [1, 0] ∧
    sumSq (applyWalshHadamard Qs2.rt2inv 1 [1, 0]) = sumSq [1, 0] :=
  claim_C8 Qs2.rt2inv Qs2.two_rt2inv_sq 1 [1, 0] rfl

/-- C9: with `draw=True` on a non-empty line, `quantum_scan_line` returns
the circuit object itself (the H-all / oracle / H-all / measure-all circuit),
never a verdict string, and the result does not depend on any samples — no
simulation happens on that path. -/
theorem claim_C9 (line : List ℤ) (hne : line ≠ []) (samples samples2 : List ℕ) :
    quantum_scan_line line true samples = ScanResult.circuit (buildCircuit line) ∧
    quantum_scan_line line true samples = quantum_scan_line line true samples2 ∧
    (∀ v : String, quantum_scan_line line true samples ≠ ScanResult.verdict v) := by
  refine ⟨quantum_scan_line_draw_eq hne samples, ?_, ?_⟩
  · rw [quantum_scan_line_draw_eq hne, quantum_scan_line_draw_eq hne]
  · intro v habs
    rw [quantum_scan_line_draw_eq hne] at habs
    simp at habs

theorem claim_C9_witness :
    quantum_scan_line [1] true [0] = ScanResult.circuit (buildCircuit [1]) ∧
    quantum_scan_line [1] true [0] = quantum_scan_line [1] true [1, 2] ∧
    (∀ v : String, quantum_scan_line [1] true [0] ≠ ScanResult.verdict v) :=
  claim_C9 [1] (by decide) [0] [1, 2]

/-- C10: when the board size is at least 1, every requested ship length is
between 1 and the size, and every random attempt respects the `randint`
ranges the code draws from, every coordinate returned by `place_ships` lies
on the board, no coordinate is produced twice (overlapping placements are
rejected), and a ship whose attempts are exhausted is simply omitted,
leaving the accumulated coordinates unchanged. -/
theorem claim_C10 (size : ℕ) (lengths : List ℕ) (rng : List (List Attempt))
    (hsize : 1 ≤ size) (hlen : ∀ l ∈ lengths, 1 ≤ l ∧ l ≤ size)
    (hv : ∀ p ∈ lengths.zip rng, ∀ a ∈ p.2, validAttempt size p.1 a) :
    (∀ rc ∈ place_ships size lengths rng, rc.1 < size ∧ rc.2 < size) ∧
    (place_ships size lengths rng).Nodup ∧
    (∀ (length : ℕ) (coords : List (ℕ × ℕ)), placeOne length [] coords = coords) := by
  obtain ⟨h1, h2⟩ := place_ships_invariant size lengths rng hv
  exact ⟨h1, h2, fun _ _ => rfl⟩

theorem claim_C10_witness :
    (∀ rc ∈ place_ships 2 [1] [[⟨true, 0, 0⟩]], rc.1 < 2 ∧ rc.2 < 2) ∧
    (place_ships 2 [1] [[⟨true, 0, 0⟩]]).Nodup ∧
    (∀ (length : ℕ) (coords : List (ℕ × ℕ)), placeOne length [] coords = coords) :=
  claim_C10 2 [1] [[⟨true, 0, 0⟩]] (by decide) (by decide) (by decide)

/-- C2: on a non-empty all-zero line the phase vector has no `-1` entry, the
diagonal step is the identity on any state of the right length, the two
normalized Walsh–Hadamard applications compose to the identity, the derived
probability distribution puts mass 1 on index 0 and 0 everywhere else, and
every scan whose samples come from the support of that distribution returns
MISS — deterministic MISS. -/
theorem claim_C2 (line : List ℤ) (hne : line ≠ []) (h0 : ∀ x ∈ line, x = 0) :
    ¬ (-1 : ℤ) ∈ create_oracle line ∧
    (∀ v : List Qs2, v.length = 2 ^ nQubits line.length →
      applyDiagonal (create_oracle line) v = v) ∧
    (∀ v : List Qs2, v.length = 2 ^ nQubits line.length →
      applyWalshHadamard Qs2.rt2inv (nQubits line.length)
        (applyWalshHadamard Qs2.rt2inv (nQubits line.length) v) = v) ∧
    probDist line = 1 :: List.replicate (2 ^ nQubits line.length - 1) 0 ∧
    (∀ samples : List ℕ, samples.length = shotCount line →
      (∀ s ∈ samples, (probDist line).getD s 0 ≠ 0) →
      quantum_scan_line line false samples = ScanResult.verdict "MISS") := by
  have hrep := create_oracle_all_zero h0 hne
  refine ⟨?_, ?_, ?_, probDist_zero_line hne h0, ?_⟩
  · rw [hrep]
    simp [List.mem_replicate]
  · intro v hv
    rw [hrep]
    exact applyDiagonal_ones _ v hv
  · intro v hv
    exact wh_wh Qs2.two_rt2inv_sq _ v hv
  · intro samples hslen hsup
    have hall : ∀ s ∈ samples, s = 0 := by
      intro s hs
      have hs2 := hsup s hs
      rw [probDist_zero_line hne h0] at hs2
      cases s with
      | zero => rfl
      | succ k =>
        exfalso
        rw [List.getD_cons_succ] at hs2
        exact hs2 (getD_replicate 0 _ k)
    have hcnt : samples.count 0 = samples.length :=
      List.count_eq_length.mpr (fun b hb => (hall b hb).symm)
    have hnot : ¬ samples.count 0 < shotCount line := by
      rw [hcnt, hslen]
      omega
    rw [quantum_scan_line_eq hne, if_neg hnot]

theorem claim_C2_witness :
    ¬ (-1 : ℤ) ∈ create_oracle [0] ∧
    (∀ v : List Qs2, v.length = 2 ^ nQubits ([0] : List ℤ).length →
      applyDiagonal (create_oracle [0]) v = v) ∧
    (∀ v : List Qs2, v.length = 2 ^ nQubits ([0] : List ℤ).length →
      applyWalshHadamard Qs2.rt2inv (nQubits ([0] : List ℤ).length)
        (applyWalshHadamard Qs2.rt2inv (nQubits ([0] : List ℤ).length) v) = v) ∧
    probDist [0] = 1 :: List.replicate (2 ^ nQubits ([0] : List ℤ).length - 1) 0 ∧
    (∀ samples : List ℕ, samples.length = shotCount [0] →
      (∀ s ∈ samples, (probDist [0]).getD s 0 ≠ 0) →
      quantum_scan_line [0] false samples = ScanResult.verdict "MISS") :=
  claim_C2 [0] (by decide) (by decide)

/-- C3 counterexample: the fully-marked line `[1, 1]` has phase vector
`[-1, -1]` (a global phase), so despite having a `-1` entry the probability
of measuring index 0 is exactly 1, not less than 1, and the probability of
returning DETECT is 0 — the scan deterministically misses this ship. -/
theorem claim_C3_counterexample :
    (-1 : ℤ) ∈ create_oracle [1, 1] ∧
    probZero [1, 1] = 1 ∧
    Qs2.ofQ (probZero [1, 1]) =
      (scanState [1, 1]).getD 0 0 * (scanState [1, 1]).getD 0 0 ∧
    ¬ probZero [1, 1] < 1 ∧
    detectProb [1, 1] = 0 := by
  have hne : ([1, 1] : List ℤ) ≠ [] := by decide
  have hco : create_oracle [1, 1] = [-1, -1] := by decide
  have hp : probZero [1, 1] = 1 := by
    rw [probZero_eq hne, hco, show nQubits ([1, 1] : List ℤ).length = 1 from by decide]
    norm_num [List.sum_cons, List.sum_nil]
  refine ⟨by decide, hp, ofQ_probZero hne, by rw [hp]; exact lt_irrefl 1, ?_⟩
  unfold detectProb
  rw [hp, one_pow]
  norm_num

/-- C3 (amended): if the phase vector has at least one `-1` entry AND at
least one `+1` entry (i.e. the marked cells do not fill all `2 ^ n` slots),
the probability of measuring index 0 after the H–oracle–H circuit is
strictly less than 1, so a scan returns DETECT with probability
`1 − P(zero)^shotCount > 0`. -/
theorem claim_C3 (line : List ℤ) (hneg : (-1 : ℤ) ∈ create_oracle line)
    (hpos : (1 : ℤ) ∈ create_oracle line) :
    Qs2.ofQ (probZero line) =
      (scanState line).getD 0 0 * (scanState line).getD 0 0 ∧
    probZero line < 1 ∧ 0 < detectProb line := by
  have hne : line ≠ [] := by
    intro h
    subst h
    revert hneg
    decide
  have hlen := create_oracle_length hne
  have hall : ∀ x ∈ create_oracle line, x = 1 ∨ x = -1 :=
    fun x hx => create_oracle_mem hx
  have hmix := sum_bounds_mixed hall hneg hpos
  rw [hlen] at hmix
  have hN : (2 : ℕ) ≤ 2 ^ nQubits line.length := two_le_two_pow_nQubits _
  have hNZ : (2 : ℤ) ≤ ((2 ^ nQubits line.length : ℕ) : ℤ) := by exact_mod_cast hN
  have hS2 : ((create_oracle line).sum) ^ 2 < ((2 ^ nQubits line.length : ℕ) : ℤ) ^ 2 := by
    have h1 := hmix.1
    have h2 := hmix.2
    apply sq_lt_sq'
    · omega
    · omega
  have hprob : probZero line < 1 := by
    rw [probZero_eq hne, div_pow, div_lt_one (by positivity)]
    calc ((create_oracle line).sum : ℚ) ^ 2
        = (((create_oracle line).sum ^ 2 : ℤ) : ℚ) := by push_cast; ring
    _ < ((((2 ^ nQubits line.length : ℕ) : ℤ) ^ 2 : ℤ) : ℚ) := by exact_mod_cast hS2
    _ = ((2 : ℚ) ^ nQubits line.length) ^ 2 := by push_cast; ring
  refine ⟨ofQ_probZero hne, hprob, ?_⟩
  unfold detectProb
  have h0 := probZero_nonneg hne
  have hpow : probZero line ^ shotCount line < 1 :=
    pow_lt_one₀ h0 hprob (by unfold shotCount; omega)
  linarith

theorem claim_C3_witness :
    Qs2.ofQ (probZero [1, 0]) =
      (scanState [1, 0]).getD 0 0 * (scanState [1, 0]).getD 0 0 ∧
    probZero [1, 0] < 1 ∧ 0 < detectProb [1, 0] :=
  claim_C3 [1, 0] (by decide) (by decide)

/-- C7 counterexample: for the line `[0,0,1,0]` the amplitude of index 0
after the second Walsh–Hadamard is `0.5`, not `0.25` as claimed, and the
probability of sampling index 0 per shot is `1/4`, not `1/16`. -/
theorem claim_C7_counterexample :
    (scanState [0, 0, 1, 0]).getD 0 0 = Qs2.ofQ (1/2) ∧
    (scanState [0, 0, 1, 0]).getD 0 0 ≠ Qs2.ofQ (1/4) ∧
    probZero [0, 0, 1, 0] = 1/4 ∧
    probZero [0, 0, 1, 0] ≠ 1/16 := by
  have hne : ([0, 0, 1, 0] : List ℤ) ≠ [] := by decide
  have hco : create_oracle [0, 0, 1, 0] = [1, 1, -1, 1] := by decide
  have hn : nQubits ([0, 0, 1, 0] : List ℤ).length = 2 := by decide
  have hamp : (scanState [0, 0, 1, 0]).getD 0 0 = Qs2.ofQ (1/2) := by
    rw [scanState_getD_zero hne, hco, hn]
    congr 1
    norm_num [List.sum_cons, List.sum_nil]
  have hp : probZero [0, 0, 1, 0] = 1/4 := by
    rw [probZero_eq hne, hco, hn]
    norm_num [List.sum_cons, List.sum_nil]
  refine ⟨hamp, ?_, hp, ?_⟩
  · rw [hamp]
    intro h
    have h2 := Qs2.ofQ_injective h
    norm_num at h2
  · rw [hp]
    norm_num

/-- C7 (amended): for the line `[0,0,1,0]`: `n = 2`, `shotCount = 3`, phase
vector `[+1,+1,−1,+1]`, uniform state `[0.5,0.5,0.5,0.5]` after the first
Walsh–Hadamard, `[0.5,0.5,−0.5,0.5]` after the diagonal, amplitude `0.5`
(not 0.25) at index 0 after the second Walsh–Hadamard, probability `1/4`
(not 1/16) of sampling index 0 per shot, and DETECT probability
`1 − (1/4)³ = 63/64` per invocation. -/
theorem claim_C7 :
    nQubits 4 = 2 ∧
    shotCount [0, 0, 1, 0] = 3 ∧
    create_oracle [0, 0, 1, 0] = [1, 1, -1, 1] ∧
    applyWalshHadamard Qs2.rt2inv 2 (initState 2) =
      [Qs2.ofQ (1/2), Qs2.ofQ (1/2), Qs2.ofQ (1/2), Qs2.ofQ (1/2)] ∧
    applyDiagonal (create_oracle [0, 0, 1, 0])
        (applyWalshHadamard Qs2.rt2inv 2 (initState 2)) =
      [Qs2.ofQ (1/2), Qs2.ofQ (1/2), Qs2.ofQ (-(1/2)), Qs2.ofQ (1/2)] ∧
    (scanState [0, 0, 1, 0]).getD 0 0 = Qs2.ofQ (1/2) ∧
    probZero [0, 0, 1, 0] = 1/4 ∧
    detectProb [0, 0, 1, 0] = 1 - (1/4) ^ 3 := by
  have hne : ([0, 0, 1, 0] : List ℤ) ≠ [] := by decide
  have hco : create_oracle [0, 0, 1, 0] = [1, 1, -1, 1] := by decide
  have hn : nQubits ([0, 0, 1, 0] : List ℤ).length = 2 := by decide
  have hwh : applyWalshHadamard Qs2.rt2inv 2 (initState 2) =
      [Qs2.ofQ (1/2), Qs2.ofQ (1/2), Qs2.ofQ (1/2), Qs2.ofQ (1/2)] := by
    rw [applyWalshHadamard_initState,
      show Qs2.rt2inv ^ 2 = Qs2.ofQ (1/2) from by rw [pow_two, Qs2.rt2inv_sq]]
    rfl
  have hdiag : applyDiagonal (create_oracle [0, 0, 1, 0])
      (applyWalshHadamard Qs2.rt2inv 2 (initState 2)) =
      [Qs2.ofQ (1/2), Qs2.ofQ (1/2), Qs2.ofQ (-(1/2)), Qs2.ofQ (1/2)] := by
    rw [hwh, hco]
    unfold applyDiagonal
    simp only [List.zipWith_cons_cons, List.zipWith_nil_left, Int.cast_one,
      Int.cast_neg, neg_mul, one_mul, Qs2.ofQ_neg]
  have hamp : (scanState [0, 0, 1, 0]).getD 0 0 = Qs2.ofQ (1/2) := by
    rw [scanState_getD_zero hne, hco, hn]
    congr 1
    norm_num [List.sum_cons, List.sum_nil]
  have hp : probZero [0, 0, 1, 0] = 1/4 := by
    rw [probZero_eq hne, hco, hn]
    norm_num [List.sum_cons, List.sum_nil]
  refine ⟨by decide, by decide, hco, hwh, hdiag, hamp, hp, ?_⟩
  unfold detectProb
  rw [hp, show shotCount [0, 0, 1, 0] = 3 from by decide]
